import Mathlib

/-!
Verification of the core query-construction and domain-aggregation logic of
the `hist` Safari-history analysis tool.

Modelling conventions: Go strings are lists of characters (Go indexes bytes,
but every delimiter the source compares against is ASCII, so the two views
agree on all comparisons performed here); Go `time.Time` values are integer
nanosecond offsets from the Go zero time (0001-01-01T00:00:00 UTC, proleptic
Gregorian), so `IsZero` corresponds to the value `0`; Go `float64` values are
exact rationals (the rationals used in concrete statements below are exactly
representable as binary floats and the operations on them are exact in IEEE
arithmetic); Go `int` counters are unbounded integers — no claim below
exercises 64-bit overflow, and the `int64` range of `time.Duration` is not
modelled (conversions outside it are implementation-defined in Go).
-/

namespace Hist

/-- Go strings, modelled as lists of characters. -/
abbrev Str := List Char

/-- Converts a Lean string literal to the model's string type. -/
def gs (s : String) : Str := s.data

/-- Whether `p` is an initial segment of `s` (Go `strings.HasPrefix s p`,
also the shape of a Go slice comparison `s[:len(p)] == p`). -/
def listStartsWith : Str → Str → Bool
  | _, [] => true
  | [], _ :: _ => false
  | a :: s, b :: p => a = b && listStartsWith s p

/-- Go `strings.Contains s sub`. -/
def listContainsSub : Str → Str → Bool
  | [], sub => decide (sub = [])
  | a :: t, sub => listStartsWith (a :: t) sub || listContainsSub t sub

/-- Whether `q` is a final segment of `s` (Go `strings.HasSuffix s q`);
used only to state the spec's wording of the ignore rules. -/
def listEndsWith (s q : Str) : Bool := listStartsWith s.reverse q.reverse

/-- Go `time.Time`, as nanoseconds since the Go zero time. -/
abbrev GoTime := Int

/-- Nanoseconds per second (`float64(time.Second)` is exactly this value). -/
def nsPerSec : Int := 1000000000

/-- Truncation of a rational toward zero, the behaviour of Go's
float-to-integer conversion `time.Duration(f)` on in-range values. -/
def truncQ (q : ℚ) : Int := if 0 ≤ q then ⌊q⌋ else -⌊-q⌋

/-- Rounding of a positive rational to the binary64 grid: the value is
scaled by the power of two that puts it in `[2^52, 2^53)`, the scaled value
is rounded to the nearest integer with ties to even, and the result is
scaled back. -/
def flr (a : ℚ) : ℚ :=
  let e : Int := Int.log 2 a - 52
  let s : ℚ := a / 2 ^ e
  let b : Int := ⌊s⌋
  let r : Int :=
    if s - b < 1 / 2 then b
    else if (1 : ℚ) / 2 < s - b then b + 1
    else if b % 2 = 0 then b else b + 1
  (r : ℚ) * 2 ^ e

/-- Rounding of a rational to the nearest binary64 value (53-bit
significand, round-to-nearest, ties to even), the result of every IEEE
arithmetic operation and int-to-float conversion in Go.  The exponent range
is unbounded: overflow and subnormals are not modelled, which is faithful
for every magnitude the statements below exercise. -/
def fl (q : ℚ) : ℚ :=
  if q = 0 then 0 else if 0 < q then flr q else -flr (-q)

/-- Days in the interval [0001-01-01, y-01-01) of the proleptic Gregorian
calendar (for years `1 ≤ y`, as used by Go's absolute-time computation). -/
def daysBeforeYear (y : Int) : Int :=
  365 * (y - 1) + (y - 1) / 4 - (y - 1) / 100 + (y - 1) / 400

/-- Whether `y` is a Gregorian leap year. -/
def isLeap (y : Int) : Bool := y % 4 = 0 && (y % 100 ≠ 0 || y % 400 = 0)

/-- Days in the interval [y-01-01, y-m-01) for month `1 ≤ m ≤ 12`. -/
def daysBeforeMonth (y m : Int) : Int :=
  let base :=
    if m = 1 then 0 else if m = 2 then 31 else if m = 3 then 59 else if m = 4 then 90
    else if m = 5 then 120 else if m = 6 then 151 else if m = 7 then 181
    else if m = 8 then 212 else if m = 9 then 243 else if m = 10 then 273
    else if m = 11 then 304 else 334
  if 2 < m && isLeap y then base + 1 else base

/-- Go's `time.Date(y, m, d, h, mi, s, 0, time.UTC)` for in-range arguments. -/
def timeDate (y m d h mi s : Int) : GoTime :=
  ((daysBeforeYear y + daysBeforeMonth y m + (d - 1)) * 86400 + h * 3600 + mi * 60 + s) *
    nsPerSec

/-- Source: `var coreDataEpoch = time.Date(2001, 1, 1, 0, 0, 0, 0, time.UTC)`. -/
def coreDataEpoch : GoTime := timeDate 2001 1 1 0 0 0

/-- Source: `convertCoreDataTimestamp(timestamp float64) time.Time` returns
`coreDataEpoch.Add(time.Duration(timestamp * float64(time.Second)))`: the
IEEE product of `timestamp` and `float64(time.Second) = 1e9` (the exact
product rounded to binary64 by `fl`), then truncated to integer nanoseconds
by the float-to-`time.Duration` conversion. -/
def convertCoreDataTimestamp (timestamp : ℚ) : GoTime :=
  coreDataEpoch + truncQ (fl (timestamp * (nsPerSec : ℚ)))

/-- Source: `convertToTimestamp(t time.Time) float64` returns
`t.Sub(coreDataEpoch).Seconds()`; `Duration.Seconds` computes
`float64(sec) + float64(nsec)/1e9` from the truncating 64-bit division and
remainder of the nanosecond count by 1e9, with each int-to-float conversion
and each arithmetic operation rounded to binary64 (`fl`). -/
def convertToTimestamp (t : GoTime) : ℚ :=
  fl (fl ((Int.tdiv (t - coreDataEpoch) nsPerSec : Int) : ℚ) +
    fl (fl ((Int.tmod (t - coreDataEpoch) nsPerSec : Int) : ℚ) / (nsPerSec : ℚ)))

/-- Values appended to a query's argument list (Go `[]interface{}`). -/
inductive GoValue where
  | str (s : Str)
  | int (n : Int)
  | float (q : ℚ)
deriving DecidableEq

/-- Source: `SearchFilter` — keyword, exact-domain, date bounds (the Go
zero `time.Time` is the absent sentinel) and the ignore list. -/
structure SearchFilter where
  Keyword : Str
  Domain : Str
  From : GoTime
  To : GoTime
  IgnoreDomains : List Str
deriving DecidableEq

/-- Source: `QueryBuilder` — base query, the `strings.Builder` accumulating
the WHERE clause (modelled as the accumulated string) and the argument
list. -/
structure QueryBuilder where
  baseQuery : Str
  whereClause : Str
  args : List GoValue
deriving DecidableEq

/-- Source: `NewQueryBuilder`. -/
def NewQueryBuilder (baseQuery : Str) : QueryBuilder := ⟨baseQuery, [], []⟩

/-- Source: `(*QueryBuilder).WithKeyword`. -/
def WithKeyword (qb : QueryBuilder) (keyword : Str) : QueryBuilder :=
  if keyword ≠ [] then
    { qb with
      whereClause := qb.whereClause ++ gs " AND (hi.url LIKE ? OR hv.title LIKE ?)",
      args := qb.args ++
        [.str (gs "%" ++ keyword ++ gs "%"), .str (gs "%" ++ keyword ++ gs "%")] }
  else qb

/-- Source: `(*QueryBuilder).WithDomain`. -/
def WithDomain (qb : QueryBuilder) (domain : Str) : QueryBuilder :=
  if domain ≠ [] then
    { qb with
      whereClause := qb.whereClause ++ gs " AND hi.domain_expansion = ?",
      args := qb.args ++ [.str domain] }
  else qb

/-- Source: `(*QueryBuilder).WithIgnoreDomains` — for every non-empty
pattern `d`, four clauses are written and the four arguments
`d`, `"%."+d`, `"%://"+d+".%"`, `"%://%."+d+".%"` are appended. -/
def WithIgnoreDomains (qb : QueryBuilder) : List Str → QueryBuilder
  | [] => qb
  | d :: rest =>
    if d ≠ [] then
      WithIgnoreDomains
        { qb with
          whereClause := qb.whereClause ++
            gs " AND COALESCE(hi.domain_expansion, '') != ?" ++
            gs " AND COALESCE(hi.domain_expansion, '') NOT LIKE ?" ++
            gs " AND hi.url NOT LIKE ?" ++
            gs " AND hi.url NOT LIKE ?",
          args := qb.args ++
            [.str d, .str (gs "%." ++ d), .str (gs "%://" ++ d ++ gs ".%"),
              .str (gs "%://%." ++ d ++ gs ".%")] }
        rest
    else WithIgnoreDomains qb rest

/-- Source: `(*QueryBuilder).WithDateRange` — a non-zero `from` appends the
lower bound, a non-zero `to` appends the upper bound at
`to.Add(24*time.Hour - time.Second)`. -/
def WithDateRange (qb : QueryBuilder) (fromT toT : GoTime) : QueryBuilder :=
  let qb1 :=
    if fromT ≠ 0 then
      { qb with
        whereClause := qb.whereClause ++ gs " AND hv.visit_time >= ?",
        args := qb.args ++ [.float (convertToTimestamp fromT)] }
    else qb
  if toT ≠ 0 then
    { qb1 with
      whereClause := qb1.whereClause ++ gs " AND hv.visit_time <= ?",
      args := qb1.args ++
        [.float (convertToTimestamp (toT + (24 * 3600 - 1) * nsPerSec))] }
  else qb1

/-- Source: `(*QueryBuilder).WithFilter` — keyword, domain, date range,
then ignore domains, in that fixed order. -/
def WithFilter (qb : QueryBuilder) (filter : SearchFilter) : QueryBuilder :=
  WithIgnoreDomains
    (WithDateRange (WithDomain (WithKeyword qb filter.Keyword) filter.Domain)
      filter.From filter.To)
    filter.IgnoreDomains

/-- Source: `(*QueryBuilder).OrderByDesc`. -/
def OrderByDesc (qb : QueryBuilder) (column : Str) : QueryBuilder :=
  { qb with whereClause := qb.whereClause ++ gs " ORDER BY " ++ column ++ gs " DESC" }

/-- Source: `(*QueryBuilder).Limit`. -/
def Limit (qb : QueryBuilder) (limit : Int) : QueryBuilder :=
  { qb with whereClause := qb.whereClause ++ gs " LIMIT ?", args := qb.args ++ [.int limit] }

/-- Source: `(*QueryBuilder).Offset`. -/
def Offset (qb : QueryBuilder) (offset : Int) : QueryBuilder :=
  { qb with whereClause := qb.whereClause ++ gs " OFFSET ?", args := qb.args ++ [.int offset] }

/-- Source: `(*QueryBuilder).Build`. -/
def Build (qb : QueryBuilder) : Str × List GoValue :=
  (qb.baseQuery ++ qb.whereClause, qb.args)

/-- Source: `(*QueryBuilder).Args`. -/
def Args (qb : QueryBuilder) : List GoValue := qb.args

/-- The four WHERE-clause fragments one non-empty ignore pattern writes. -/
def ignoreClauses : Str :=
  gs " AND COALESCE(hi.domain_expansion, '') != ?" ++
    gs " AND COALESCE(hi.domain_expansion, '') NOT LIKE ?" ++
    gs " AND hi.url NOT LIKE ?" ++
    gs " AND hi.url NOT LIKE ?"

/-- The four arguments one non-empty ignore pattern appends, in order. -/
def ignoreArgs (d : Str) : List GoValue :=
  [.str d, .str (gs "%." ++ d), .str (gs "%://" ++ d ++ gs ".%"),
    .str (gs "%://%." ++ d ++ gs ".%")]

/-- The scheme separator `"://"`. -/
def sep : Str := gs "://"

/-- Go `strings.Index urlStr "://"`: the position of the first occurrence,
or `none` when there is none (Go returns `-1`). -/
def idxOfSep : Str → Option Nat
  | [] => none
  | c :: t => if listStartsWith (c :: t) sep then some 0 else (idxOfSep t).map (· + 1)

/-- Whether a character ends the host part of a URL (the loop condition
`c == '/' || c == '?' || c == ':' || c == '#'` of the source). -/
def isHostEnd (c : Char) : Bool := c = '/' || c = '?' || c = ':' || c = '#'

/-- The scanning loop of `extractDomain`: the index of the first
host-terminating character, or the length when none occurs. -/
def findEnd : Str → Nat
  | [] => 0
  | c :: t => if isHostEnd c then 0 else findEnd t + 1

/-- Source: `extractDomain` — empty result when `"://"` is absent, and
otherwise `rest[:end]` where `rest` follows the first `"://"` and `end` is
the position of the first terminator in `rest`. -/
def extractDomain (urlStr : Str) : Str :=
  match idxOfSep urlStr with
  | none => []
  | some start =>
    let rest := urlStr.drop (start + 3)
    rest.take (findEnd rest)

/-- Source: `shouldIgnoreDomain` — the loop skips empty patterns and checks,
per pattern: exact equality; the guarded slice comparison
`domain[:len(ignored)+1] == ignored+"."`; the guarded slice comparison
`domain[len(domain)-len(ignored)-1:] == "."+ignored`; and
`strings.Contains(domain, "."+ignored+".")`. -/
def shouldIgnoreDomain (domain : Str) : List Str → Bool
  | [] => false
  | ignored :: rest =>
    if ignored = [] then shouldIgnoreDomain domain rest
    else if domain = ignored then true
    else if domain.length > ignored.length ∧
        domain.take (ignored.length + 1) = ignored ++ ['.'] then true
    else if domain.length > ignored.length + 1 ∧
        domain.drop (domain.length - ignored.length - 1) = '.' :: ignored then true
    else if listContainsSub domain ('.' :: (ignored ++ ['.'])) then true
    else shouldIgnoreDomain domain rest

/-- The ignore rule exactly as the specification claims it: exact match,
leading `pattern+"."`, trailing `"."+pattern`, or embedded `"."+pattern+"."`;
empty patterns never match.  Stated from the spec's words, to be compared
with the source's `shouldIgnoreDomain`. -/
def shouldIgnoreSpec (domain : Str) (patterns : List Str) : Bool :=
  patterns.any fun p =>
    !p.isEmpty &&
      (decide (domain = p) || listStartsWith domain (p ++ ['.']) ||
        listEndsWith domain ('.' :: p) || listContainsSub domain ('.' :: (p ++ ['.'])))

/-- Source: `DomainStats`. -/
structure DomainStats where
  Domain : Str
  VisitCount : Int
deriving DecidableEq

/-- One step of Go's `domainCounts[domain] += visitCount`, on an association
list kept in insertion order. -/
def addCount : List (Str × Int) → Str → Int → List (Str × Int)
  | [], d, c => [(d, c)]
  | (d', c') :: rest, d, c =>
    if d' = d then (d', c' + c) :: rest else (d', c') :: addCount rest d c

/-- Insertion step of sorting by a descending integer key (a deterministic
model of `sort.Slice` with a strict greater-than comparator; ties keep a
deterministic order, which no claim constrains). -/
def insertByDesc {α : Type} (key : α → Int) (x : α) : List α → List α
  | [] => [x]
  | y :: t => if key y ≤ key x then x :: y :: t else y :: insertByDesc key x t

/-- Sorting by a descending integer key. -/
def sortByDesc {α : Type} (key : α → Int) : List α → List α
  | [] => []
  | x :: t => insertByDesc key x (sortByDesc key t)

/-- The domain bucket `getDomainStats` uses for URLs with no extractable
host. -/
def unknownDomain : Str := gs "不明"

/-- The shared tail of the domain-stats pipeline: turn the accumulated
(domain, count) pairs into records, sort by count descending, and truncate
to `limit` when `0 < limit < length` (Go `stats = stats[:limit]`). -/
def statsPipeline (counts : List (Str × Int)) (limit : Int) : List DomainStats :=
  let stats := counts.map fun p => DomainStats.mk p.1 p.2
  let sorted := sortByDesc (fun s => s.VisitCount) stats
  if 0 < limit ∧ limit < (sorted.length : Int) then sorted.take limit.toNat else sorted

/-- Source: `getDomainStats`, modelled on the fetched rows of
(url, visit_count): extract the domain, substitute `"不明"` when empty, skip
domains the ignore list matches, sum counts per domain, then sort and
truncate. -/
def getDomainStats (rows : List (Str × Int)) (limit : Int) (ign : List Str) :
    List DomainStats :=
  statsPipeline
    (rows.foldl
      (fun acc r =>
        let domain := extractDomain r.1
        let domain := if domain = [] then unknownDomain else domain
        if shouldIgnoreDomain domain ign then acc else addCount acc domain r.2)
      [])
    limit

/-- The same counting/sorting/truncation pipeline applied to already-derived
(domain, count) pairs, with no special case for any bucket name. -/
def domainAggregate (pairs : List (Str × Int)) (limit : Int) (ign : List Str) :
    List DomainStats :=
  statsPipeline
    (pairs.foldl
      (fun acc p => if shouldIgnoreDomain p.1 ign then acc else addCount acc p.1 p.2)
      [])
    limit

/-- The bucket name `getDomainStats` derives from a URL. -/
def effectiveDomain (url : Str) : Str :=
  if extractDomain url = [] then unknownDomain else extractDomain url

/-- Go `strings.Split hostname "."` (splitting the empty string yields one
empty field, as in Go). -/
def splitOnDot : Str → List Str
  | [] => [[]]
  | c :: t =>
    if c = '.' then [] :: splitOnDot t
    else
      match splitOnDot t with
      | [] => [[c]]
      | h :: r => (c :: h) :: r

/-- Go `strings.Join labels "."`. -/
def joinDots : List Str → Str
  | [] => []
  | [l] => l
  | l :: ls => l ++ '.' :: joinDots ls

/-- The recognized two-part public suffixes (the set exercised by the
repository's tests: co.jp, co.uk, com.au, com.br, ac.jp, or.jp, ne.jp). -/
def twoPartSuffixes : List Str :=
  [gs "co.jp", gs "co.uk", gs "com.au", gs "com.br", gs "ac.jp", gs "or.jp", gs "ne.jp"]

/-- Modelled from the spec: `extractBaseDomain` is absent from the sources
(only its tests remain).  Per the spec it splits the hostname into
dot-separated labels, keeps the three trailing labels when the last two form
a recognized two-part public suffix, keeps two trailing labels otherwise,
and returns the input unchanged when it has fewer labels than required
(bare TLDs and the empty string included). -/
def extractBaseDomain (hostname : Str) : Str :=
  let labels := splitOnDot hostname
  if 3 ≤ labels.length ∧ joinDots (labels.drop (labels.length - 2)) ∈ twoPartSuffixes then
    joinDots (labels.drop (labels.length - 3))
  else if 2 ≤ labels.length then joinDots (labels.drop (labels.length - 2))
  else hostname

/-- One subdomain entry of a hierarchical bucket (declared with the absent
implementation; its shape is fixed by the tests and the spec). -/
structure SubdomainStat where
  Subdomain : Str
  Count : Int
deriving DecidableEq

/-- A hierarchical domain bucket, as the spec's data model describes it. -/
structure HierarchicalDomainStats where
  BaseDomain : Str
  TotalCount : Int
  HasSubdomains : Bool
  Subdomains : List SubdomainStat
deriving DecidableEq

/-- Adds `c` to hostname `h`'s entry, appending a new entry when absent. -/
def addSub : List SubdomainStat → Str → Int → List SubdomainStat
  | [], h, c => [⟨h, c⟩]
  | s :: rest, h, c =>
    if s.Subdomain = h then ⟨s.Subdomain, s.Count + c⟩ :: rest
    else s :: addSub rest h c

/-- An in-progress bucket: base domain, running total, per-hostname counts. -/
structure GroupAcc where
  base : Str
  total : Int
  subs : List SubdomainStat
deriving DecidableEq

/-- Credits `c` to hostname `h` inside base-domain `b`'s bucket, creating
the bucket when absent; the running total and the per-hostname entry are
updated together. -/
def addHostCount : List GroupAcc → Str → Str → Int → List GroupAcc
  | [], b, h, c => [⟨b, c, [⟨h, c⟩]⟩]
  | g :: rest, b, h, c =>
    if g.base = b then ⟨g.base, g.total + c, addSub g.subs h c⟩ :: rest
    else g :: addHostCount rest b h c

/-- Sum of the per-hostname counts of a bucket. -/
def sumCounts (subs : List SubdomainStat) : Int := (subs.map SubdomainStat.Count).sum

/-- Modelled from the spec: the hierarchical grouping behind
`getHierarchicalDomainStats` (absent from the sources, only its tests
remain).  Per the spec it computes `extractBaseDomain` per hostname, groups
by the result summing counts into the total, records each distinct hostname
with its own count, sets `HasSubdomains` iff more than one distinct hostname
contributed, and orders buckets by total descending. -/
def groupHierarchical (entries : List (Str × Int)) : List HierarchicalDomainStats :=
  let grouped := entries.foldl
    (fun acc e => addHostCount acc (extractBaseDomain e.1) e.1 e.2) []
  let stats := grouped.map fun g =>
    HierarchicalDomainStats.mk g.base g.total (decide (1 < g.subs.length)) g.subs
  sortByDesc (fun s => s.TotalCount) stats

/-- The bucket invariant the accumulator maintains: the running total is the
sum of the per-hostname counts, and the hostnames are pairwise distinct. -/
def accInv (g : GroupAcc) : Prop :=
  g.total = sumCounts g.subs ∧ (g.subs.map SubdomainStat.Subdomain).Nodup

/-- The operations of the builder's fluent API, for stating sequence-level
invariants over arbitrary call chains. -/
inductive QOp where
  | key (k : Str)
  | dom (d : Str)
  | ignore (ds : List Str)
  | dateRange (f t : GoTime)
  | filt (f : SearchFilter)
  | orderBy (c : Str)
  | lim (n : Int)
  | off (n : Int)

/-- Applies one builder operation. -/
def applyOp (qb : QueryBuilder) : QOp → QueryBuilder
  | .key k => WithKeyword qb k
  | .dom d => WithDomain qb d
  | .ignore ds => WithIgnoreDomains qb ds
  | .dateRange f t => WithDateRange qb f t
  | .filt f => WithFilter qb f
  | .orderBy c => OrderByDesc qb c
  | .lim n => Limit qb n
  | .off n => Offset qb n

/-- Applies a chain of builder operations in order. -/
def applyOps (qb : QueryBuilder) (ops : List QOp) : QueryBuilder :=
  ops.foldl applyOp qb

/-- Number of `?` placeholders in a clause string. -/
def countQ (s : Str) : Nat := s.count '?'

/-- Whether an operation's caller-supplied column text is placeholder-free;
only `OrderByDesc` splices caller text into the query, so only it is
restricted. -/
def colOk : QOp → Prop
  | .orderBy c => '?' ∉ c
  | _ => True

end Hist

namespace Hist

theorem truncQ_intCast (n : Int) : truncQ (n : ℚ) = n := by
  by_cases h : (0 : ℚ) ≤ (n : ℚ)
  · simp [truncQ, h]
  · simp only [truncQ, h, if_false]
    rw [← Int.cast_neg, Int.floor_intCast]
    ring

theorem fl_zero : fl 0 = 0 := by
  simp [fl]

theorem flr_eq_self (a : ℚ) (k t : Int) (ha : a = (k : ℚ) * 2 ^ t)
    (hk0 : 0 < k) (hk : k < 9007199254740992) : flr a = a := by
  have h2 : (2 : ℚ) ≠ 0 := by norm_num
  have hzpos : ∀ u : Int, (0 : ℚ) < 2 ^ u := fun u => zpow_pos (by norm_num) u
  have hapos : 0 < a := by
    rw [ha]
    exact mul_pos (by exact_mod_cast hk0) (hzpos t)
  have hle : Int.log 2 a - 52 ≤ t := by
    by_contra hlt
    push_neg at hlt
    have hmono : (2 : ℚ) ^ (t + 53) ≤ 2 ^ Int.log 2 a :=
      zpow_le_zpow_right₀ (by norm_num) (by omega)
    have hlog : (2 : ℚ) ^ Int.log 2 a ≤ a := by
      have h3 := Int.zpow_log_le_self (R := ℚ) (b := 2) (by norm_num) hapos
      simpa using h3
    have hup : a < 2 ^ (t + 53) := by
      rw [ha, zpow_add₀ h2 t 53]
      have hk' : (k : ℚ) < 9007199254740992 := by exact_mod_cast hk
      have h53 : (2 : ℚ) ^ (53 : Int) = 9007199254740992 := by norm_num
      calc (k : ℚ) * 2 ^ t < 9007199254740992 * 2 ^ t :=
            mul_lt_mul_of_pos_right hk' (hzpos t)
        _ = 2 ^ t * 2 ^ (53 : Int) := by rw [h53]; ring
    linarith
  have hnn : 0 ≤ t - (Int.log 2 a - 52) := by omega
  have hs : a / 2 ^ (Int.log 2 a - 52) =
      ((k * 2 ^ (t - (Int.log 2 a - 52)).toNat : Int) : ℚ) := by
    have hre : ((k * 2 ^ (t - (Int.log 2 a - 52)).toNat : Int) : ℚ) =
        (k : ℚ) * 2 ^ (t - (Int.log 2 a - 52)) := by
      push_cast
      rw [← zpow_natCast (2 : ℚ) (t - (Int.log 2 a - 52)).toNat,
        Int.toNat_of_nonneg hnn]
    rw [hre, zpow_sub₀ h2 t (Int.log 2 a - 52), ha]
    ring
  simp only [flr]
  rw [hs, Int.floor_intCast, sub_self, if_pos (by norm_num : (0 : ℚ) < 1 / 2)]
  rw [← hs, div_mul_cancel₀ _ (ne_of_gt (hzpos _))]

theorem fl_eq_self (q : ℚ) (k t : Int) (hq : q = (k : ℚ) * 2 ^ t)
    (hk : k.natAbs < 9007199254740992) : fl q = q := by
  have hzpos : (0 : ℚ) < 2 ^ t := zpow_pos (by norm_num) t
  rcases lt_trichotomy k 0 with hneg | rfl | hpos
  · have hqneg : q < 0 := by
      rw [hq]
      exact mul_neg_of_neg_of_pos (by exact_mod_cast hneg) hzpos
    rw [fl, if_neg (ne_of_lt hqneg), if_neg (not_lt.mpr (le_of_lt hqneg))]
    have h1 : flr (-q) = -q := by
      refine flr_eq_self (-q) (-k) t ?_ (by omega) (by omega)
      rw [hq]
      push_cast
      ring
    rw [h1, neg_neg]
  · have hq0 : q = 0 := by
      rw [hq]
      simp
    rw [hq0, fl, if_pos rfl]
  · have hqpos : 0 < q := by
      rw [hq]
      exact mul_pos (by exact_mod_cast hpos) hzpos
    rw [fl, if_neg (ne_of_gt hqpos), if_pos hqpos]
    exact flr_eq_self q k t hq hpos (by omega)

theorem neg_tmod_left (a b : Int) : Int.tmod (-a) b = -Int.tmod a b := by
  rw [Int.tmod_def, Int.tmod_def, Int.neg_tdiv]
  ring

theorem tmod_bounds (a : Int) {b : Int} (hb : 0 < b) :
    -b < Int.tmod a b ∧ Int.tmod a b < b := by
  refine ⟨?_, Int.tmod_lt_of_pos a hb⟩
  rcases le_or_lt 0 a with ha | ha
  · have h1 := Int.tmod_nonneg b ha
    omega
  · have h1 : Int.tmod a b = -Int.tmod (-a) b := by
      rw [← neg_tmod_left, neg_neg]
    have h2 := Int.tmod_lt_of_pos (-a) hb
    omega

theorem tdiv_mul_mul_left (a b m : Int) (ha : 0 < a) (hb : 0 < b) :
    (a * m).tdiv (a * b) = m.tdiv b := by
  rcases le_or_lt 0 m with hm | hm
  · rw [Int.tdiv_eq_ediv (mul_nonneg ha.le hm) (mul_nonneg ha.le hb.le),
      Int.tdiv_eq_ediv hm hb.le, Int.mul_ediv_mul_of_pos _ _ ha]
  · have hm' : 0 ≤ -m := by omega
    have h1 : a * m = -(a * -m) := by ring
    rw [h1, Int.neg_tdiv,
      Int.tdiv_eq_ediv (mul_nonneg ha.le hm') (mul_nonneg ha.le hb.le),
      Int.mul_ediv_mul_of_pos _ _ ha]
    have h2 : m.tdiv b = -((-m).tdiv b) := by
      rw [Int.neg_tdiv, neg_neg]
    rw [h2, Int.tdiv_eq_ediv hm' hb.le]

theorem tmod_mul_mul_left (a b m : Int) (ha : 0 < a) (hb : 0 < b) :
    (a * m).tmod (a * b) = a * m.tmod b := by
  rcases le_or_lt 0 m with hm | hm
  · rw [Int.tmod_eq_emod (mul_nonneg ha.le hm) (mul_nonneg ha.le hb.le),
      Int.tmod_eq_emod hm hb.le, Int.mul_emod_mul_of_pos _ _ ha]
  · have hm' : 0 ≤ -m := by omega
    have h1 : a * m = -(a * -m) := by ring
    rw [h1, neg_tmod_left,
      Int.tmod_eq_emod (mul_nonneg ha.le hm') (mul_nonneg ha.le hb.le),
      Int.mul_emod_mul_of_pos _ _ ha]
    have h2 : m.tmod b = -((-m).tmod b) := by
      rw [← neg_tmod_left, neg_neg]
    rw [h2, Int.tmod_eq_emod hm' hb.le]
    ring

/-- C1: the round trip `encode(decode(x)) = x` fails on the code for the
float `x = 2 ^ (-31)` (exactly representable in binary64, and the IEEE
product with 1e9 is exact): the truncating conversion to whole nanoseconds
inside `convertCoreDataTimestamp` collapses `x` to the epoch, so encoding
returns `0`, not `x`. -/
theorem C1_roundtrip_counterexample :
    convertToTimestamp (convertCoreDataTimestamp ((1 : ℚ) / 2147483648)) ≠
      (1 : ℚ) / 2147483648 := by
  have hq : ((1 : ℚ) / 2147483648) * (nsPerSec : ℚ) = 1953125 / 4194304 := by
    norm_num [nsPerSec]
  have hfl : fl ((1953125 : ℚ) / 4194304) = 1953125 / 4194304 :=
    fl_eq_self _ 1953125 (-22) (by norm_num) (by norm_num)
  have htr : truncQ ((1953125 : ℚ) / 4194304) = 0 := by
    have h0 : (0 : ℚ) ≤ (1953125 : ℚ) / 4194304 := by norm_num
    have h1 : ⌊(1953125 : ℚ) / 4194304⌋ = 0 := by
      rw [Int.floor_eq_zero_iff]
      constructor <;> norm_num
    simp [truncQ, h0, h1]
  have hdec : convertCoreDataTimestamp ((1 : ℚ) / 2147483648) = coreDataEpoch := by
    rw [convertCoreDataTimestamp, hq, hfl, htr, add_zero]
  rw [hdec]
  simp only [convertToTimestamp, sub_self, Int.zero_tdiv, Int.zero_tmod, Int.cast_zero,
    fl_zero, zero_div, add_zero]
  norm_num

/-- C1 (amended): decoding 0 yields exactly 2001-01-01T00:00:00 UTC, and
encoding the decoded timestamp returns `x` exactly for every float `x` that
is a whole number of nanoseconds with magnitude below 2^53 nanoseconds (the
floats that are whole nanosecond counts are exactly the multiples of
2^-9 s, so this domain is `x = m/512` with `|m| ≤ 4611686018`); beyond it
the IEEE-rounded multiply or sum can move the value, and the counterexample
shows sub-nanosecond floats are truncated away. -/
theorem C1_timestamp_codec :
    (∀ x : ℚ, (∃ m : Int, m.natAbs ≤ 4611686018 ∧ x = (m : ℚ) / 512) →
      convertToTimestamp (convertCoreDataTimestamp x) = x) ∧
    convertCoreDataTimestamp 0 = timeDate 2001 1 1 0 0 0 := by
  constructor
  · rintro x ⟨m, hm, rfl⟩
    have hprod : ((m : ℚ) / 512) * (nsPerSec : ℚ) = ((1953125 * m : Int) : ℚ) := by
      push_cast
      field_simp [nsPerSec]
      ring
    have hbound : (1953125 * m : Int).natAbs < 9007199254740992 := by
      rw [Int.natAbs_mul, show (1953125 : Int).natAbs = 1953125 from rfl]
      omega
    have hfl1 : fl (((1953125 * m : Int) : ℚ)) = ((1953125 * m : Int) : ℚ) :=
      fl_eq_self _ (1953125 * m) 0 (by simp) hbound
    have hdec : convertCoreDataTimestamp ((m : ℚ) / 512) =
        coreDataEpoch + 1953125 * m := by
      rw [convertCoreDataTimestamp, hprod, hfl1, truncQ_intCast]
    rw [hdec]
    simp only [convertToTimestamp]
    rw [show coreDataEpoch + 1953125 * m - coreDataEpoch = 1953125 * m from by ring]
    have hsec : Int.tdiv (1953125 * m) nsPerSec = Int.tdiv m 512 := by
      rw [show nsPerSec = 1953125 * 512 from rfl]
      exact tdiv_mul_mul_left 1953125 512 m (by norm_num) (by norm_num)
    have hnsec : Int.tmod (1953125 * m) nsPerSec = 1953125 * Int.tmod m 512 := by
      rw [show nsPerSec = 1953125 * 512 from rfl]
      exact tmod_mul_mul_left 1953125 512 m (by norm_num) (by norm_num)
    rw [hsec, hnsec]
    have hid : 512 * Int.tdiv m 512 + Int.tmod m 512 = m := Int.tdiv_add_tmod m 512
    have hrb : -512 < Int.tmod m 512 ∧ Int.tmod m 512 < 512 :=
      tmod_bounds m (by norm_num)
    have hfl_sec : fl ((Int.tdiv m 512 : Int) : ℚ) = ((Int.tdiv m 512 : Int) : ℚ) :=
      fl_eq_self _ (Int.tdiv m 512) 0 (by simp) (by omega)
    have hfl_nsec : fl (((1953125 * Int.tmod m 512 : Int) : ℚ)) =
        ((1953125 * Int.tmod m 512 : Int) : ℚ) := by
      refine fl_eq_self _ (1953125 * Int.tmod m 512) 0 (by simp) ?_
      rw [Int.natAbs_mul, show (1953125 : Int).natAbs = 1953125 from rfl]
      omega
    have h9 : (2 : ℚ) ^ (-9 : Int) = 1 / 512 := by norm_num
    have hq512 : ((1953125 * Int.tmod m 512 : Int) : ℚ) / (nsPerSec : ℚ) =
        ((Int.tmod m 512 : Int) : ℚ) * 2 ^ (-9 : Int) := by
      rw [h9]
      push_cast
      rw [show ((nsPerSec : Int) : ℚ) = 1000000000 from by norm_num [nsPerSec]]
      ring
    have hfl_div : fl (((Int.tmod m 512 : Int) : ℚ) * 2 ^ (-9 : Int)) =
        ((Int.tmod m 512 : Int) : ℚ) * 2 ^ (-9 : Int) :=
      fl_eq_self _ (Int.tmod m 512) (-9) rfl (by omega)
    have hcast : (512 : ℚ) * ((Int.tdiv m 512 : Int) : ℚ) +
        ((Int.tmod m 512 : Int) : ℚ) = (m : ℚ) := by
      exact_mod_cast hid
    have hsum : ((Int.tdiv m 512 : Int) : ℚ) +
        ((Int.tmod m 512 : Int) : ℚ) * 2 ^ (-9 : Int) = (m : ℚ) / 512 := by
      rw [h9]
      field_simp
      linarith [hcast]
    have hfl_sum : fl ((m : ℚ) / 512) = (m : ℚ) / 512 := by
      refine fl_eq_self _ m (-9) ?_ (by omega)
      rw [h9]
      ring
    rw [hfl_sec, hfl_nsec, hq512, hfl_div, hsum, hfl_sum]
  · show coreDataEpoch + truncQ (fl (0 * (nsPerSec : ℚ))) = timeDate 2001 1 1 0 0 0
    rw [zero_mul, fl_zero]
    have h0 : truncQ 0 = 0 := by simp [truncQ]
    rw [h0, add_zero]
    rfl

/-- C1 witness: the float 100.5 s (a whole number of nanoseconds, 51456/512)
round-trips exactly through decode then encode. -/
theorem C1_timestamp_codec_witness :
    convertToTimestamp (convertCoreDataTimestamp ((201 : ℚ) / 2)) = 201 / 2 :=
  C1_timestamp_codec.1 (201 / 2) ⟨51456, by decide, by norm_num⟩

theorem withIgnoreDomains_acc (domains : List Str) (qb : QueryBuilder) :
    (WithIgnoreDomains qb domains).baseQuery = qb.baseQuery ∧
    (WithIgnoreDomains qb domains).whereClause =
      qb.whereClause ++
        (domains.filter (fun d => !d.isEmpty)).flatMap (fun _ => ignoreClauses) ∧
    (WithIgnoreDomains qb domains).args =
      qb.args ++ (domains.filter (fun d => !d.isEmpty)).flatMap ignoreArgs := by
  induction domains generalizing qb with
  | nil => simp [WithIgnoreDomains]
  | cons d rest ih =>
    by_cases hd : d = []
    · simpa [WithIgnoreDomains, hd] using ih qb
    · have hne : d.isEmpty = false := by
        simp [List.isEmpty_iff, hd]
      obtain ⟨h1, h2, h3⟩ := ih
        { qb with
          whereClause := qb.whereClause ++
            gs " AND COALESCE(hi.domain_expansion, '') != ?" ++
            gs " AND COALESCE(hi.domain_expansion, '') NOT LIKE ?" ++
            gs " AND hi.url NOT LIKE ?" ++
            gs " AND hi.url NOT LIKE ?",
          args := qb.args ++ ignoreArgs d }
      simp only [WithIgnoreDomains, hd, ne_eq, not_false_iff, if_true, List.filter_cons,
        hne, Bool.not_false, List.flatMap_cons, ignoreArgs] at h1 h2 h3 ⊢
      refine ⟨h1, ?_, ?_⟩
      · rw [h2]
        simp [ignoreClauses, List.append_assoc]
      · rw [h3]
        simp [List.append_assoc]

/-- C3: for every pattern list, `WithIgnoreDomains` appends, for each
non-empty pattern `d` in list order, exactly the four fixed clauses and
exactly the four arguments `(d, "%."+d, "%://"+d+".%", "%://%."+d+".%")`;
empty patterns contribute no clause and no argument, and the two-element
list `["youtube.com", "google.com"]` appends exactly these 8 arguments. -/
theorem C3_with_ignore_domains (qb : QueryBuilder) (domains : List Str) (b : Str) :
    ((WithIgnoreDomains qb domains).baseQuery = qb.baseQuery ∧
      (WithIgnoreDomains qb domains).whereClause =
        qb.whereClause ++
          (domains.filter (fun d => !d.isEmpty)).flatMap (fun _ => ignoreClauses) ∧
      (WithIgnoreDomains qb domains).args =
        qb.args ++ (domains.filter (fun d => !d.isEmpty)).flatMap ignoreArgs) ∧
    (WithIgnoreDomains (NewQueryBuilder b) [gs "youtube.com", gs "google.com"]).args =
      [.str (gs "youtube.com"), .str (gs "%.youtube.com"),
        .str (gs "%://youtube.com.%"), .str (gs "%://%.youtube.com.%"),
        .str (gs "google.com"), .str (gs "%.google.com"),
        .str (gs "%://google.com.%"), .str (gs "%://%.google.com.%")] := by
  refine ⟨withIgnoreDomains_acc domains qb, ?_⟩
  rfl

/-- C4: `WithDateRange` treats the two bounds independently — a non-zero
`from` appends ` AND hv.visit_time >= ?` with argument `encode(from)`, a
non-zero `to` appends ` AND hv.visit_time <= ?` with argument
`encode(to + 24h - 1s)`, and adding `24h - 1s` to a date's midnight lands
exactly on 23:59:59 of that calendar day. -/
theorem C4_with_date_range (qb : QueryBuilder) (fromT toT : GoTime) :
    (WithDateRange qb fromT toT).baseQuery = qb.baseQuery ∧
    (WithDateRange qb fromT toT).whereClause =
      qb.whereClause ++ (if fromT ≠ 0 then gs " AND hv.visit_time >= ?" else []) ++
        (if toT ≠ 0 then gs " AND hv.visit_time <= ?" else []) ∧
    (WithDateRange qb fromT toT).args =
      qb.args ++
        (if fromT ≠ 0 then [GoValue.float (convertToTimestamp fromT)] else []) ++
        (if toT ≠ 0 then
          [GoValue.float (convertToTimestamp (toT + (24 * 3600 - 1) * nsPerSec))]
        else []) ∧
    (∀ y m d : Int,
      timeDate y m d 0 0 0 + (24 * 3600 - 1) * nsPerSec = timeDate y m d 23 59 59) := by
  refine ⟨?_, ?_, ?_, ?_⟩
  · by_cases hf : fromT = 0 <;> by_cases ht : toT = 0 <;>
      simp [WithDateRange, hf, ht]
  · by_cases hf : fromT = 0 <;> by_cases ht : toT = 0 <;>
      simp [WithDateRange, hf, ht, List.append_assoc]
  · by_cases hf : fromT = 0 <;> by_cases ht : toT = 0 <;>
      simp [WithDateRange, hf, ht, List.append_assoc]
  · intro y m d
    simp only [timeDate, nsPerSec]
    ring

/-- C5: a filter whose keyword, domain, date bounds and ignore list are all
empty/zero leaves the base query text unchanged and the argument list
empty. -/
theorem C5_empty_filter_noop (b : Str) (f : SearchFilter)
    (hk : f.Keyword = []) (hd : f.Domain = []) (hf : f.From = 0) (ht : f.To = 0)
    (hi : f.IgnoreDomains = []) :
    Build (WithFilter (NewQueryBuilder b) f) = (b, []) := by
  simp [Build, WithFilter, WithKeyword, WithDomain, WithDateRange, WithIgnoreDomains,
    NewQueryBuilder, hk, hd, hf, ht, hi]

/-- C5 witness: the empty filter applied to a concrete base query. -/
theorem C5_empty_filter_noop_witness :
    Build (WithFilter (NewQueryBuilder (gs "SELECT * FROM test WHERE 1=1"))
        ⟨[], [], 0, 0, []⟩) =
      (gs "SELECT * FROM test WHERE 1=1", []) :=
  C5_empty_filter_noop _ _ rfl rfl rfl rfl rfl

theorem listStartsWith_iff (s p : Str) :
    listStartsWith s p = true ↔ ∃ t, s = p ++ t := by
  induction p generalizing s with
  | nil => simp [listStartsWith]
  | cons b p ih =>
    cases s with
    | nil => simp [listStartsWith]
    | cons a s =>
      simp only [listStartsWith, Bool.and_eq_true, decide_eq_true_eq, ih, List.cons_append]
      constructor
      · rintro ⟨rfl, t, rfl⟩
        exact ⟨t, rfl⟩
      · rintro ⟨t, h⟩
        rw [List.cons.injEq] at h
        exact ⟨h.1, t, h.2⟩

theorem listContainsSub_iff (s sub : Str) :
    listContainsSub s sub = true ↔ ∃ pre t, s = pre ++ sub ++ t := by
  induction s with
  | nil =>
    simp only [listContainsSub, decide_eq_true_eq]
    constructor
    · rintro rfl
      exact ⟨[], [], rfl⟩
    · rintro ⟨pre, t, h⟩
      have h' := h.symm
      simp only [List.append_eq_nil] at h'
      exact h'.1.2
  | cons a s ih =>
    simp only [listContainsSub, Bool.or_eq_true, ih, listStartsWith_iff]
    constructor
    · rintro (⟨t, h⟩ | ⟨pre, t, h⟩)
      · exact ⟨[], t, by simpa using h⟩
      · exact ⟨a :: pre, t, by simp [h]⟩
    · rintro ⟨pre, t, h⟩
      cases pre with
      | nil =>
        left
        exact ⟨t, by simpa using h⟩
      | cons x pre =>
        right
        simp only [List.cons_append, List.cons.injEq, List.append_assoc] at h
        exact ⟨pre, t, by simp [h.2]⟩

theorem take_len_eq_iff (s q : Str) :
    s.take q.length = q ↔ ∃ t, s = q ++ t := by
  constructor
  · intro h
    refine ⟨s.drop q.length, ?_⟩
    conv_lhs => rw [← List.take_append_drop q.length s]
    rw [h]
  · rintro ⟨t, rfl⟩
    exact List.take_left q t

theorem drop_len_eq_iff (s q : Str) :
    s.drop (s.length - q.length) = q ↔ ∃ pre, s = pre ++ q := by
  constructor
  · intro h
    refine ⟨s.take (s.length - q.length), ?_⟩
    conv_lhs => rw [← List.take_append_drop (s.length - q.length) s]
    rw [h]
  · rintro ⟨pre, rfl⟩
    rw [List.length_append, Nat.add_sub_cancel]
    exact List.drop_left pre q

theorem ruleB_iff (d p : Str) :
    (d.length > p.length ∧ d.take (p.length + 1) = p ++ ['.']) ↔
      ∃ t, d = p ++ '.' :: t := by
  have hlen : p.length + 1 = (p ++ ['.']).length := by simp
  constructor
  · rintro ⟨-, h⟩
    rw [hlen, take_len_eq_iff] at h
    obtain ⟨t, rfl⟩ := h
    exact ⟨t, by simp⟩
  · rintro ⟨t, rfl⟩
    refine ⟨by simp, ?_⟩
    rw [hlen, take_len_eq_iff]
    exact ⟨t, by simp⟩

theorem ruleC_iff (d p : Str) :
    (d.length > p.length + 1 ∧ d.drop (d.length - p.length - 1) = '.' :: p) ↔
      ∃ pre, pre ≠ [] ∧ d = pre ++ '.' :: p := by
  have hsub : d.length - p.length - 1 = d.length - ('.' :: p).length := by
    simp only [List.length_cons]
    omega
  constructor
  · rintro ⟨hl, h⟩
    rw [hsub, drop_len_eq_iff] at h
    obtain ⟨pre, rfl⟩ := h
    refine ⟨pre, ?_, rfl⟩
    rintro rfl
    simp only [List.nil_append, List.length_cons] at hl
    omega
  · rintro ⟨pre, hpre, rfl⟩
    have hlp : pre.length ≠ 0 := by simpa [List.length_eq_zero] using hpre
    refine ⟨?_, ?_⟩
    · simp only [List.length_append, List.length_cons]
      omega
    · rw [hsub, drop_len_eq_iff]
      exact ⟨pre, rfl⟩

theorem ruleD_iff (d p : Str) :
    listContainsSub d ('.' :: (p ++ ['.'])) = true ↔
      ∃ pre t, d = pre ++ '.' :: (p ++ '.' :: t) := by
  rw [listContainsSub_iff]
  constructor
  · rintro ⟨pre, t, rfl⟩
    exact ⟨pre, t, by simp⟩
  · rintro ⟨pre, t, rfl⟩
    exact ⟨pre, t, by simp⟩

theorem shouldIgnore_cons (d p : Str) (rest : List Str) :
    shouldIgnoreDomain d (p :: rest) = true ↔
      (p ≠ [] ∧ (d = p ∨
        (d.length > p.length ∧ d.take (p.length + 1) = p ++ ['.']) ∨
        (d.length > p.length + 1 ∧ d.drop (d.length - p.length - 1) = '.' :: p) ∨
        listContainsSub d ('.' :: (p ++ ['.'])) = true)) ∨
      shouldIgnoreDomain d rest = true := by
  by_cases hp : p = []
  · simp [shouldIgnoreDomain, hp]
  · rw [shouldIgnoreDomain, if_neg hp]
    split_ifs with h1 h2 h3 h4 <;> simp_all

/-- C2 (amended): `shouldIgnoreDomain d patterns` is true iff some non-empty
pattern `p` in the list satisfies one of: `d` equals `p`; `d` starts with
`p+"."`; `d` ends with `"."+p` with a non-empty part before that dot (the
code's guard `len(d) > len(p)+1` excludes `d = "."+p` itself, which the
original claim admitted); or `d` contains `"."+p+"."`.  Empty patterns are
skipped and never match. -/
theorem C2_should_ignore_domain (d : Str) (ps : List Str) :
    shouldIgnoreDomain d ps = true ↔
      ∃ p ∈ ps, p ≠ [] ∧
        (d = p ∨ (∃ t, d = p ++ '.' :: t) ∨
          (∃ pre, pre ≠ [] ∧ d = pre ++ '.' :: p) ∨
          (∃ pre t, d = pre ++ '.' :: (p ++ '.' :: t))) := by
  induction ps with
  | nil => simp [shouldIgnoreDomain]
  | cons p rest ih =>
    rw [shouldIgnore_cons, ih, List.exists_mem_cons_iff, ruleB_iff, ruleC_iff, ruleD_iff]

/-- C2 counterexample: for the domain `".google"` and the single pattern
`"google"`, the rules exactly as the claim states them (spec wording,
`shouldIgnoreSpec`) match — `".google"` ends with `"."+"google"` — but the
code's `shouldIgnoreDomain` returns false, because its trailing-suffix rule
requires the domain to be strictly longer than `"."+pattern`. -/
theorem C2_should_ignore_counterexample :
    shouldIgnoreSpec (gs ".google") [gs "google"] = true ∧
    shouldIgnoreDomain (gs ".google") [gs "google"] = false := by
  constructor <;> decide

theorem take_findEnd (s : Str) :
    s.take (findEnd s) = s.takeWhile (fun c => !isHostEnd c) := by
  induction s with
  | nil => rfl
  | cons c t ih =>
    by_cases hc : isHostEnd c = true
    · simp [findEnd, hc, List.takeWhile_cons]
    · simp only [Bool.not_eq_true] at hc
      simp [findEnd, hc, List.takeWhile_cons, ih]

theorem idxOfSep_eq_none (u : Str) (h : listContainsSub u sep = false) :
    idxOfSep u = none := by
  induction u with
  | nil => rfl
  | cons c t ih =>
    rw [listContainsSub, Bool.or_eq_false_iff] at h
    simp [idxOfSep, h.1, ih h.2]

theorem startsWith_take_contains (u q : Str) (n : Nat)
    (hsw : listStartsWith u q = true) (hn : q.length ≤ n) :
    listContainsSub (u.take n) q = true := by
  obtain ⟨t, rfl⟩ := (listStartsWith_iff _ _).mp hsw
  rw [List.take_append_eq_append_take, List.take_of_length_le hn]
  exact (listContainsSub_iff _ _).mpr ⟨[], t.take (n - q.length), by simp⟩

theorem idxOfSep_first (pre rest : Str)
    (h : listContainsSub ((pre ++ sep ++ rest).take (pre.length + 2)) sep = false) :
    idxOfSep (pre ++ sep ++ rest) = some pre.length := by
  induction pre with
  | nil =>
    have hsw : listStartsWith (([] : Str) ++ sep ++ rest) sep = true :=
      (listStartsWith_iff _ _).mpr ⟨rest, by simp⟩
    cases hu : ([] : Str) ++ sep ++ rest with
    | nil => simp [sep, gs] at hu
    | cons c t =>
      rw [hu] at hsw
      simp [idxOfSep, hsw]
  | cons a pre' ih =>
    have hU : (a :: pre') ++ sep ++ rest = a :: (pre' ++ sep ++ rest) := by simp
    rw [hU] at h ⊢
    simp only [List.length_cons] at h
    have hself : (a :: (pre' ++ sep ++ rest)).take (pre'.length + 1 + 2) =
        a :: ((pre' ++ sep ++ rest).take (pre'.length + 2)) := rfl
    rw [hself] at h
    have h2 : listContainsSub ((pre' ++ sep ++ rest).take (pre'.length + 2)) sep = false := by
      cases hc : listContainsSub ((pre' ++ sep ++ rest).take (pre'.length + 2)) sep with
      | false => rfl
      | true =>
        exfalso
        have : listContainsSub
            (a :: ((pre' ++ sep ++ rest).take (pre'.length + 2))) sep = true := by
          rw [listContainsSub, hc, Bool.or_true]
        rw [this] at h
        cases h
    have hsw : listStartsWith (a :: (pre' ++ sep ++ rest)) sep = false := by
      cases hb : listStartsWith (a :: (pre' ++ sep ++ rest)) sep with
      | false => rfl
      | true =>
        exfalso
        have hlen : sep.length ≤ pre'.length + 1 + 2 := by
          have : sep.length = 3 := rfl
          omega
        have hcon := startsWith_take_contains _ _ (pre'.length + 1 + 2) hb hlen
        rw [hself] at hcon
        rw [hcon] at h
        cases h
    have hsw2 : listStartsWith (a :: (pre' ++ (sep ++ rest))) sep = false := by
      simpa using hsw
    have hidx := ih h2
    simp only [List.append_assoc] at hidx
    simp [idxOfSep, hsw2, hidx]

/-- C6: `extractDomain` returns the empty string when `"://"` does not
occur in the URL, and otherwise returns the substring starting just after
the first `"://"` and ending just before the first subsequent occurrence of
`/`, `?`, `:` or `#` (or the end of the string if none occurs). -/
theorem C6_extract_domain (u pre rest : Str) :
    (listContainsSub u sep = false → extractDomain u = []) ∧
    (u = pre ++ sep ++ rest →
      listContainsSub (u.take (pre.length + 2)) sep = false →
      extractDomain u = rest.takeWhile (fun c => !isHostEnd c)) := by
  constructor
  · intro h
    simp [extractDomain, idxOfSep_eq_none u h]
  · rintro rfl h
    simp only [extractDomain, idxOfSep_first pre rest h]
    have h3 : pre.length + 3 = (pre ++ sep).length := by
      rw [List.length_append, show sep.length = 3 from rfl]
    have hdrop : (pre ++ sep ++ rest).drop (pre.length + 3) = rest := by
      rw [h3]
      exact List.drop_left _ _
    rw [hdrop, take_findEnd]

/-- C6 witness: a URL with a scheme, a port and a path, whose host ends at
the port colon. -/
theorem C6_extract_domain_witness :
    extractDomain (gs "https://localhost:8080/api") = gs "localhost" := by
  have h := (C6_extract_domain (gs "https://localhost:8080/api") (gs "https")
    (gs "localhost:8080/api")).2 (by decide) (by decide)
  rw [h]
  decide

/-- C10: `getDomainStats` assigns every URL from which no host can be
extracted to the bucket `"不明"` instead of dropping it, and that bucket is
counted, ignore-checked, sorted and limit-truncated exactly like any other
domain: the function factors through `effectiveDomain` into the uniform
pipeline `domainAggregate`, which has no special case for any bucket name. -/
theorem C10_unknown_bucket (rows : List (Str × Int)) (limit : Int) (ign : List Str)
    (url : Str) :
    getDomainStats rows limit ign =
      domainAggregate (rows.map fun r => (effectiveDomain r.1, r.2)) limit ign ∧
    (extractDomain url = [] → effectiveDomain url = gs "不明") := by
  constructor
  · have hfold : ∀ (l : List (Str × Int)) (acc : List (Str × Int)),
        l.foldl
          (fun acc r =>
            let domain := extractDomain r.1
            let domain := if domain = [] then unknownDomain else domain
            if shouldIgnoreDomain domain ign then acc else addCount acc domain r.2)
          acc =
        (l.map fun r => (effectiveDomain r.1, r.2)).foldl
          (fun acc p => if shouldIgnoreDomain p.1 ign then acc else addCount acc p.1 p.2)
          acc := by
      intro l
      induction l with
      | nil => intro acc; rfl
      | cons r t ih =>
        intro acc
        simp only [List.map_cons, List.foldl_cons]
        exact ih _
    unfold getDomainStats domainAggregate
    rw [hfold rows []]
  · intro h
    simp [effectiveDomain, h, unknownDomain]

/-- C10 witness: a URL without a scheme has no extractable host and lands in
the `"不明"` bucket. -/
theorem C10_unknown_bucket_witness :
    effectiveDomain (gs "example.com/path") = gs "不明" :=
  (C10_unknown_bucket [] 0 [] (gs "example.com/path")).2 (by decide)

/-- C7 (spec-modelled, the implementation is absent from the sources):
`extractBaseDomain` keeps three trailing labels when the last two form a
recognized two-part public suffix and two trailing labels otherwise, returns
the input unchanged when it has fewer than two labels (bare TLDs and the
empty string included), and maps the claim's examples as stated. -/
theorem C7_extract_base_domain (hostname : Str) :
    ((3 ≤ (splitOnDot hostname).length ∧
        joinDots ((splitOnDot hostname).drop ((splitOnDot hostname).length - 2)) ∈
          twoPartSuffixes) →
      extractBaseDomain hostname =
        joinDots ((splitOnDot hostname).drop ((splitOnDot hostname).length - 3))) ∧
    ((2 ≤ (splitOnDot hostname).length ∧
        joinDots ((splitOnDot hostname).drop ((splitOnDot hostname).length - 2)) ∉
          twoPartSuffixes) →
      extractBaseDomain hostname =
        joinDots ((splitOnDot hostname).drop ((splitOnDot hostname).length - 2))) ∧
    ((splitOnDot hostname).length < 2 → extractBaseDomain hostname = hostname) ∧
    extractBaseDomain (gs "www.example.co.jp") = gs "example.co.jp" ∧
    extractBaseDomain (gs "mail.google.com") = gs "google.com" ∧
    extractBaseDomain (gs "a.com") = gs "a.com" ∧
    extractBaseDomain (gs "com") = gs "com" ∧
    extractBaseDomain (gs "") = gs "" := by
  refine ⟨?_, ?_, ?_, by decide, by decide, by decide, by decide, by decide⟩
  · intro hcond
    simp only [extractBaseDomain]
    split_ifs
    rfl
  · rintro ⟨h2, hn⟩
    simp only [extractBaseDomain]
    split_ifs with hA
    · exact absurd hA.2 hn
    · rfl
  · intro hlt
    simp only [extractBaseDomain]
    split_ifs with hA hB
    · exact absurd hA.1 (by omega)
    · exact absurd hB (by omega)
    · rfl

/-- C7 witness: a four-label hostname over the two-part suffix `co.uk`. -/
theorem C7_extract_base_domain_witness :
    extractBaseDomain (gs "shop.example.co.uk") = gs "example.co.uk" := by
  have h := (C7_extract_base_domain (gs "shop.example.co.uk")).1 (by decide)
  rw [h]
  decide

/-- The spec-modelled `extractBaseDomain` reproduces every row of the
repository's `TestExtractBaseDomain` table. -/
theorem extractBaseDomain_test_vectors :
    extractBaseDomain (gs "example.com") = gs "example.com" ∧
    extractBaseDomain (gs "www.example.com") = gs "example.com" ∧
    extractBaseDomain (gs "mail.google.com") = gs "google.com" ∧
    extractBaseDomain (gs "api.v2.example.com") = gs "example.com" ∧
    extractBaseDomain (gs "www.example.co.jp") = gs "example.co.jp" ∧
    extractBaseDomain (gs "shop.example.co.uk") = gs "example.co.uk" ∧
    extractBaseDomain (gs "api.example.com.au") = gs "example.com.au" ∧
    extractBaseDomain (gs "www.example.com.br") = gs "example.com.br" ∧
    extractBaseDomain (gs "lib.example.ac.jp") = gs "example.ac.jp" ∧
    extractBaseDomain (gs "portal.example.gov") = gs "example.gov" ∧
    extractBaseDomain (gs "www.example.org") = gs "example.org" ∧
    extractBaseDomain (gs "www.example.or.jp") = gs "example.or.jp" ∧
    extractBaseDomain (gs "api.example.ne.jp") = gs "example.ne.jp" ∧
    extractBaseDomain (gs "a.com") = gs "a.com" ∧
    extractBaseDomain (gs "io.com") = gs "io.com" ∧
    extractBaseDomain (gs "com") = gs "com" ∧
    extractBaseDomain (gs "") = gs "" := by
  decide

theorem mem_insertByDesc {α : Type} (key : α → Int) (a x : α) (l : List α) :
    x ∈ insertByDesc key a l ↔ x = a ∨ x ∈ l := by
  induction l with
  | nil => simp [insertByDesc]
  | cons y t ih =>
    rw [insertByDesc]
    split_ifs with hc
    · simp [List.mem_cons]
    · simp only [List.mem_cons, ih]
      tauto

theorem mem_sortByDesc {α : Type} (key : α → Int) (x : α) (l : List α) :
    x ∈ sortByDesc key l ↔ x ∈ l := by
  induction l with
  | nil => simp [sortByDesc]
  | cons y t ih =>
    rw [sortByDesc, mem_insertByDesc]
    simp [ih]

theorem pairwise_insertByDesc {α : Type} (key : α → Int) (x : α) (l : List α)
    (h : List.Pairwise (fun u v => key v ≤ key u) l) :
    List.Pairwise (fun u v => key v ≤ key u) (insertByDesc key x l) := by
  induction l with
  | nil => simp [insertByDesc]
  | cons y t ih =>
    rw [List.pairwise_cons] at h
    rw [insertByDesc]
    split_ifs with hc
    · refine List.Pairwise.cons ?_ (List.Pairwise.cons h.1 h.2)
      intro z hz
      rcases List.mem_cons.mp hz with rfl | hz'
      · exact hc
      · exact le_trans (h.1 z hz') hc
    · refine List.Pairwise.cons ?_ (ih h.2)
      intro z hz
      rcases (mem_insertByDesc key x z t).mp hz with rfl | hz'
      · exact le_of_not_le hc
      · exact h.1 z hz'

theorem pairwise_sortByDesc {α : Type} (key : α → Int) (l : List α) :
    List.Pairwise (fun u v => key v ≤ key u) (sortByDesc key l) := by
  induction l with
  | nil => simp [sortByDesc]
  | cons y t ih =>
    rw [sortByDesc]
    exact pairwise_insertByDesc key y _ ih

theorem addSub_sum (subs : List SubdomainStat) (h : Str) (c : Int) :
    sumCounts (addSub subs h c) = sumCounts subs + c := by
  induction subs with
  | nil => simp [addSub, sumCounts]
  | cons s rest ih =>
    rw [addSub]
    split_ifs with hs
    · simp only [sumCounts, List.map_cons, List.sum_cons]
      ring
    · simp only [sumCounts, List.map_cons, List.sum_cons] at ih ⊢
      rw [ih]
      ring

theorem mem_addSub_keys (subs : List SubdomainStat) (h : Str) (c : Int) (x : Str)
    (hx : x ∈ (addSub subs h c).map SubdomainStat.Subdomain) :
    x ∈ subs.map SubdomainStat.Subdomain ∨ x = h := by
  induction subs with
  | nil =>
    simp only [addSub, List.map_cons, List.map_nil, List.mem_singleton] at hx
    exact Or.inr hx
  | cons s rest ih =>
    rw [addSub] at hx
    split_ifs at hx with hs
    · simp only [List.map_cons, List.mem_cons] at hx
      rcases hx with rfl | hx'
      · exact Or.inl (by simp)
      · exact Or.inl (by simp [hx'])
    · simp only [List.map_cons, List.mem_cons] at hx
      rcases hx with rfl | hx'
      · exact Or.inl (by simp)
      · rcases ih hx' with hm | rfl
        · exact Or.inl (by simp [hm])
        · exact Or.inr rfl

theorem addSub_nodup (subs : List SubdomainStat) (h : Str) (c : Int)
    (hn : (subs.map SubdomainStat.Subdomain).Nodup) :
    ((addSub subs h c).map SubdomainStat.Subdomain).Nodup := by
  induction subs with
  | nil => simp [addSub]
  | cons s rest ih =>
    simp only [List.map_cons, List.nodup_cons] at hn
    rw [addSub]
    split_ifs with hs
    · simp only [List.map_cons, List.nodup_cons]
      exact ⟨hn.1, hn.2⟩
    · simp only [List.map_cons, List.nodup_cons]
      refine ⟨?_, ih hn.2⟩
      intro hmem
      rcases mem_addSub_keys rest h c s.Subdomain hmem with hm | heq
      · exact hn.1 hm
      · exact hs heq

theorem addHostCount_inv (acc : List GroupAcc) (b h : Str) (c : Int)
    (hacc : ∀ g ∈ acc, accInv g) :
    ∀ g ∈ addHostCount acc b h c, accInv g := by
  induction acc with
  | nil =>
    intro g hg
    rw [addHostCount, List.mem_singleton] at hg
    subst hg
    exact ⟨by simp [sumCounts], by simp⟩
  | cons g0 rest ih =>
    intro g hg
    rw [addHostCount] at hg
    split_ifs at hg with hb
    · rcases List.mem_cons.mp hg with rfl | hg'
      · have h0 := hacc g0 (List.mem_cons_self _ _)
        refine ⟨?_, addSub_nodup _ _ _ h0.2⟩
        show g0.total + c = sumCounts (addSub g0.subs h c)
        rw [addSub_sum, h0.1]
      · exact hacc g (List.mem_cons_of_mem _ hg')
    · rcases List.mem_cons.mp hg with rfl | hg'
      · exact hacc _ (List.mem_cons_self _ _)
      · exact ih (fun x hx => hacc x (List.mem_cons_of_mem _ hx)) g hg'

theorem foldGroups_inv (entries : List (Str × Int)) :
    ∀ acc : List GroupAcc, (∀ g ∈ acc, accInv g) →
      ∀ g ∈ entries.foldl
          (fun acc e => addHostCount acc (extractBaseDomain e.1) e.1 e.2) acc,
        accInv g := by
  induction entries with
  | nil =>
    intro acc h
    simpa using h
  | cons e t ih =>
    intro acc h
    exact ih _ (addHostCount_inv acc _ _ _ h)

/-- C8 (spec-modelled, the implementation is absent from the sources): every
bucket the hierarchical grouping produces satisfies: the total equals the
sum of the per-hostname entry counts, the hostname entries are pairwise
distinct (one entry per distinct contributing hostname), and
`HasSubdomains` holds iff more than one hostname entry is present; and the
buckets come out ordered by total descending. -/
theorem C8_hierarchical_stats (entries : List (Str × Int))
    (st : HierarchicalDomainStats) :
    (st ∈ groupHierarchical entries →
      st.TotalCount = sumCounts st.Subdomains ∧
      (st.HasSubdomains = true ↔ 1 < st.Subdomains.length) ∧
      (st.Subdomains.map SubdomainStat.Subdomain).Nodup) ∧
    List.Pairwise (fun a b => b.TotalCount ≤ a.TotalCount)
      (groupHierarchical entries) := by
  constructor
  · intro hst
    simp only [groupHierarchical] at hst
    rw [mem_sortByDesc] at hst
    obtain ⟨g, hg, rfl⟩ := List.mem_map.mp hst
    have hinv := foldGroups_inv entries [] (by simp) g hg
    exact ⟨hinv.1, by simp, hinv.2⟩
  · simp only [groupHierarchical]
    exact pairwise_sortByDesc _ _

/-- C8 witness: the three google hostnames of the spec's example produce the
single bucket `google.com` with total 23, three distinct subdomain entries
and `HasSubdomains` true. -/
theorem C8_hierarchical_stats_witness :
    (HierarchicalDomainStats.mk (gs "google.com") 23 true
        [⟨gs "www.google.com", 10⟩, ⟨gs "mail.google.com", 8⟩,
          ⟨gs "docs.google.com", 5⟩]).TotalCount =
      sumCounts [⟨gs "www.google.com", 10⟩, ⟨gs "mail.google.com", 8⟩,
        ⟨gs "docs.google.com", 5⟩] ∧
    ((HierarchicalDomainStats.mk (gs "google.com") 23 true
        [⟨gs "www.google.com", 10⟩, ⟨gs "mail.google.com", 8⟩,
          ⟨gs "docs.google.com", 5⟩]).HasSubdomains = true ↔
      1 < ([⟨gs "www.google.com", 10⟩, ⟨gs "mail.google.com", 8⟩,
        ⟨gs "docs.google.com", 5⟩] : List SubdomainStat).length) ∧
    (([⟨gs "www.google.com", 10⟩, ⟨gs "mail.google.com", 8⟩,
        ⟨gs "docs.google.com", 5⟩] : List SubdomainStat).map
      SubdomainStat.Subdomain).Nodup :=
  (C8_hierarchical_stats
    [(gs "www.google.com", 10), (gs "mail.google.com", 8), (gs "docs.google.com", 5)]
    (HierarchicalDomainStats.mk (gs "google.com") 23 true
      [⟨gs "www.google.com", 10⟩, ⟨gs "mail.google.com", 8⟩,
        ⟨gs "docs.google.com", 5⟩])).1 (by decide)

theorem countQ_append (s t : Str) : countQ (s ++ t) = countQ s + countQ t :=
  List.count_append _ _ _

theorem withKeyword_inv (qb : QueryBuilder) (k : Str)
    (h : countQ qb.whereClause = qb.args.length) :
    countQ (WithKeyword qb k).whereClause = (WithKeyword qb k).args.length := by
  have hfrag : countQ (gs " AND (hi.url LIKE ? OR hv.title LIKE ?)") = 2 := by decide
  by_cases hk : k = [] <;> simp [WithKeyword, hk, countQ_append, hfrag, h]

theorem withDomain_inv (qb : QueryBuilder) (d : Str)
    (h : countQ qb.whereClause = qb.args.length) :
    countQ (WithDomain qb d).whereClause = (WithDomain qb d).args.length := by
  have hfrag : countQ (gs " AND hi.domain_expansion = ?") = 1 := by decide
  by_cases hd : d = [] <;> simp [WithDomain, hd, countQ_append, hfrag, h]

theorem countQ_flatMap_clauses (l : List Str) :
    countQ (l.flatMap fun _ => ignoreClauses) = 4 * l.length := by
  induction l with
  | nil => rfl
  | cons d t ih =>
    rw [List.flatMap_cons, countQ_append, ih]
    have hfrag : countQ ignoreClauses = 4 := by decide
    rw [hfrag, List.length_cons]
    ring

theorem length_flatMap_ignoreArgs (l : List Str) :
    (l.flatMap ignoreArgs).length = 4 * l.length := by
  induction l with
  | nil => rfl
  | cons d t ih =>
    rw [List.flatMap_cons, List.length_append, ih]
    simp only [ignoreArgs, List.length_cons, List.length_nil]
    ring

theorem withIgnoreDomains_inv (qb : QueryBuilder) (ds : List Str)
    (h : countQ qb.whereClause = qb.args.length) :
    countQ (WithIgnoreDomains qb ds).whereClause =
      (WithIgnoreDomains qb ds).args.length := by
  obtain ⟨-, hw, ha⟩ := withIgnoreDomains_acc ds qb
  rw [hw, ha, countQ_append, countQ_flatMap_clauses, List.length_append,
    length_flatMap_ignoreArgs, h]

theorem withDateRange_inv (qb : QueryBuilder) (f t : GoTime)
    (h : countQ qb.whereClause = qb.args.length) :
    countQ (WithDateRange qb f t).whereClause = (WithDateRange qb f t).args.length := by
  have h1 : countQ (gs " AND hv.visit_time >= ?") = 1 := by decide
  have h2 : countQ (gs " AND hv.visit_time <= ?") = 1 := by decide
  by_cases hf : f = 0 <;> by_cases ht : t = 0 <;>
    simp [WithDateRange, hf, ht, countQ_append, h1, h2, h]

theorem orderByDesc_inv (qb : QueryBuilder) (c : Str) (hc : '?' ∉ c)
    (h : countQ qb.whereClause = qb.args.length) :
    countQ (OrderByDesc qb c).whereClause = (OrderByDesc qb c).args.length := by
  have hzero : countQ c = 0 := List.count_eq_zero.mpr hc
  have h1 : countQ (gs " ORDER BY ") = 0 := by decide
  have h2 : countQ (gs " DESC") = 0 := by decide
  simp [OrderByDesc, countQ_append, hzero, h1, h2, h]

theorem limit_inv (qb : QueryBuilder) (n : Int)
    (h : countQ qb.whereClause = qb.args.length) :
    countQ (Limit qb n).whereClause = (Limit qb n).args.length := by
  have hfrag : countQ (gs " LIMIT ?") = 1 := by decide
  simp [Limit, countQ_append, hfrag, h]

theorem offset_inv (qb : QueryBuilder) (n : Int)
    (h : countQ qb.whereClause = qb.args.length) :
    countQ (Offset qb n).whereClause = (Offset qb n).args.length := by
  have hfrag : countQ (gs " OFFSET ?") = 1 := by decide
  simp [Offset, countQ_append, hfrag, h]

theorem applyOp_inv (qb : QueryBuilder) (op : QOp) (hop : colOk op)
    (h : countQ qb.whereClause = qb.args.length) :
    countQ (applyOp qb op).whereClause = (applyOp qb op).args.length := by
  cases op with
  | key k => exact withKeyword_inv qb k h
  | dom d => exact withDomain_inv qb d h
  | ignore ds => exact withIgnoreDomains_inv qb ds h
  | dateRange f t => exact withDateRange_inv qb f t h
  | filt f =>
    exact withIgnoreDomains_inv _ _
      (withDateRange_inv _ _ _ (withDomain_inv _ _ (withKeyword_inv _ _ h)))
  | orderBy c => exact orderByDesc_inv qb c hop h
  | lim n => exact limit_inv qb n h
  | off n => exact offset_inv qb n h

/-- C9 (amended): along every operation chain started from
`NewQueryBuilder` in which each `OrderByDesc` call receives a
placeholder-free column, the number of `?` placeholders accumulated beyond
the base query equals the length of the argument list; the restriction on
`OrderByDesc` is necessary because it splices the caller's column text
verbatim into the query. -/
theorem C9_placeholder_count (b : Str) (ops : List QOp)
    (h : ∀ op ∈ ops, colOk op) :
    countQ (applyOps (NewQueryBuilder b) ops).whereClause =
      (applyOps (NewQueryBuilder b) ops).args.length := by
  have main : ∀ (l : List QOp) (qb : QueryBuilder), (∀ op ∈ l, colOk op) →
      countQ qb.whereClause = qb.args.length →
      countQ (applyOps qb l).whereClause = (applyOps qb l).args.length := by
    intro l
    induction l with
    | nil =>
      intro qb _ hq
      exact hq
    | cons op t ih =>
      intro qb hall hq
      exact ih _ (fun o ho => hall o (List.mem_cons_of_mem _ ho))
        (applyOp_inv qb op (hall op (List.mem_cons_self _ _)) hq)
  exact main ops (NewQueryBuilder b) h rfl

/-- C9 counterexample: `OrderByDesc` splices the caller's column text into
the query text, so the chain `NewQueryBuilder("")` then `OrderByDesc("?")`
leaves one `?` placeholder beyond the base query while the argument list
stays empty — the correspondence the claim asserts for every operation
fails at this operation. -/
theorem C9_counterexample :
    countQ (applyOps (NewQueryBuilder []) [QOp.orderBy (gs "?")]).whereClause = 1 ∧
    (applyOps (NewQueryBuilder []) [QOp.orderBy (gs "?")]).args.length = 0 :=
  ⟨by decide, by decide⟩

/-- C9 witness: a keyword, a placeholder-free ORDER BY column and a LIMIT
keep the placeholder count equal to the argument count. -/
theorem C9_placeholder_count_witness :
    countQ (applyOps (NewQueryBuilder (gs "SELECT 1"))
        [QOp.key (gs "test"), QOp.orderBy (gs "visit_time"), QOp.lim 10]).whereClause =
      (applyOps (NewQueryBuilder (gs "SELECT 1"))
        [QOp.key (gs "test"), QOp.orderBy (gs "visit_time"), QOp.lim 10]).args.length := by
  apply C9_placeholder_count
  intro op hop
  rcases List.mem_cons.mp hop with rfl | hop
  · trivial
  · rcases List.mem_cons.mp hop with rfl | hop
    · show '?' ∉ gs "visit_time"
      decide
    · rcases List.mem_cons.mp hop with rfl | hop
      · trivial
      · cases hop

end Hist
